import Mathlib

/-!
Verification of the video-chopper core: the identifier resolver
(`extractVideoId` in `src/worker/index.ts`) and the format selector
(`getBestFormat`, `formatBytes`, the formats-list rendering and the
`container` field mapping in `src/react-app/App.tsx` and
`src/worker/index.ts`).

Strings are embedded as `List Char`.  The repository's own code is
translated directly; the two platform facilities it calls into — the
WHATWG `URL` class and the JavaScript regular-expression engine — are
modelled by executable Lean functions whose doc comments record exactly
which fragment of the platform semantics they capture.
-/

namespace VC

/-- The allowed identifier alphabet `[A-Za-z0-9_-]`, the character class of
the bare-identifier regular expression in `extractVideoId`. -/
def idChar (c : Char) : Bool :=
  c.isAlpha || c.isDigit || c == '_' || c == '-'

/-- The capture character class `[^&\n?#]` shared by the three URL-shaped
regular expressions in `extractVideoId`. -/
def capChar (c : Char) : Bool :=
  !(c == '&' || c == '\n' || c == '?' || c == '#')

/-- `isPrefixL pat s` holds when `pat` occurs at the start of `s`. -/
def isPrefixL : List Char → List Char → Bool
  | [], _ => true
  | _ :: _, [] => false
  | p :: ps, c :: cs => p == c && isPrefixL ps cs

/-- `containsL pat s`: `pat` occurs somewhere in `s` (JavaScript
`String.prototype.includes`). -/
def containsL (pat : List Char) : List Char → Bool
  | [] => isPrefixL pat []
  | c :: cs => isPrefixL pat (c :: cs) || containsL pat cs

/-- Split a character list at every occurrence of `sep`, keeping empty
segments (JavaScript `String.prototype.split` with a one-character
separator). -/
def splitOnChar (sep : Char) : List Char → List (List Char)
  | [] => [[]]
  | c :: cs =>
    let r := splitOnChar sep cs
    if c == sep then [] :: r
    else
      match r with
      | [] => [[c]]
      | s :: ss => (c :: s) :: ss

/-- Characters that terminate the host portion of an http(s) URL. -/
def hostChar (c : Char) : Bool :=
  !(c == '/' || c == '?' || c == '#' || c == ':')

/-- Characters that may appear in the path portion of a URL. -/
def pathChar (c : Char) : Bool :=
  !(c == '?' || c == '#')

/-- The fields of the parsed-URL object that `extractVideoId` reads:
`hostname`, `pathname`, and the raw query string (without the `?`). -/
structure UrlObj where
  hostname : List Char
  pathname : List Char
  query : List Char
deriving DecidableEq

/-- Strip a leading `https://` or `http://` scheme, or fail.  Models the
success/failure behaviour of `new URL` on the inputs relevant here: a
string with no scheme (such as a bare identifier) throws, and the
repository only ever feeds http(s)-shaped strings through the structured
branch.  Inputs with other schemes (`ftp://`, uppercase `HTTPS://`,
`https:host`), which the real constructor also accepts, lie outside the
modelled fragment; no theorem below is instantiated there. -/
def afterScheme (s : List Char) : Option (List Char) :=
  if isPrefixL ("https://".data) s then some (s.drop 8)
  else if isPrefixL ("http://".data) s then some (s.drop 7)
  else none

/-- Normalise the after-host remainder so that it starts with `/` (the
WHATWG pathname defaults to `/` when the host is followed directly by a
query, a fragment, or nothing). -/
def pqNorm (r2 : List Char) : List Char :=
  if (r2.headD ' ') == '/' then r2 else '/' :: r2

/-- The pathname: the normalised remainder up to the first of `? #`. -/
def pathOf (r2 : List Char) : List Char :=
  (pqNorm r2).takeWhile pathChar

/-- The query: the text after a `?` following the pathname, up to the
first `#` (empty when there is no `?`). -/
def queryOf (r2 : List Char) : List Char :=
  if ((((pqNorm r2).drop (pathOf r2).length).headD ' ') == '?') then
    ((((pqNorm r2).drop (pathOf r2).length)).drop 1).takeWhile (fun c => !(c == '#'))
  else []

/-- Model of the WHATWG `URL` constructor as used by `extractVideoId`,
restricted to the fragment the source exercises: absolute http(s) URLs
without userinfo, ports, or percent-escapes, with hosts already in
lower case.  The host runs to the first of `/ ? # :`; the path starts at
`/` (defaulting to `/` when absent) and runs to the first of `? #`; the
query follows a `?` and runs to the first `#`.  WHATWG tab/newline
stripping, pathname percent-encoding, and host case-folding are omitted:
the pathname here is the raw text, exact only when no such normalisation
fires. -/
def parseURL (s : List Char) : Option UrlObj :=
  match afterScheme s with
  | none => none
  | some r =>
    if (r.takeWhile hostChar).isEmpty then none
    else some ⟨r.takeWhile hostChar,
               pathOf (r.drop (r.takeWhile hostChar).length),
               queryOf (r.drop (r.takeWhile hostChar).length)⟩

/-- The name of a query pair: the text before the first `=`. -/
def nameOf (s : List Char) : List Char :=
  s.takeWhile (fun c => !(c == '='))

/-- The value of a query pair: the text after the first `=` (empty when
there is no `=`). -/
def valueOf (s : List Char) : List Char :=
  (s.dropWhile (fun c => !(c == '='))).drop 1

/-- Model of `URLSearchParams.get`: split the query on `&`, drop empty
segments, and return the value of the first pair whose name matches.
Percent-decoding (and `+`-to-space translation) is omitted — the real
`get` returns the decoded value — so this model is exact only for values
without `%` or `+`, such as the allowed-alphabet identifiers at issue. -/
def getParam (k : List Char) (q : List Char) : Option (List Char) :=
  ((splitOnChar '&' q).filter (fun s => !s.isEmpty)).find?
      (fun s => nameOf s == k) |>.map valueOf

/-- The mandatory text of the first and third regular expressions in
`extractVideoId` (`youtube.com/watch?v=`); their `(?:https?:\/\/)?`,
`(?:www\.)?` and `(?:m\.)?` groups are optional, so matching is decided
by this text alone. -/
def pat1 : List Char := "youtube.com/watch?v=".data

/-- The mandatory text of the second regular expression (`youtu.be/`). -/
def pat2 : List Char := "youtu.be/".data

/-- Leftmost match of a regex of the shape `…pat([^&\n?#]+)`: scan for the
first position where `pat` occurs followed by at least one capture
character, and return the maximal run of capture characters after it.
This is the JavaScript leftmost-match semantics of the source's three
URL regexes: their optional prefix groups never move the mandatory text,
because `youtube.com/watch?v=` and `youtu.be/` cannot overlap themselves
within the length of those prefixes. -/
def matchAfter (pat : List Char) : List Char → Option (List Char)
  | [] => none
  | c :: cs =>
    if isPrefixL pat (c :: cs) then
      let cap := ((c :: cs).drop pat.length).takeWhile capChar
      if cap.isEmpty then matchAfter pat cs else some cap
    else matchAfter pat cs

/-- The anchored bare-identifier regular expression
`/^([a-zA-Z0-9_-]{11})$/`: the whole input must be an 11-character token
over the allowed alphabet. -/
def bareId (s : List Char) : Option (List Char) :=
  if s.length == 11 && s.all idChar then some s else none

/-- The regex-fallback loop of `extractVideoId`: the four patterns tried
in source order, returning the first capture.  The third pattern (the
mobile variant) has the same mandatory text as the first, hence the
repeated `matchAfter pat1`. -/
def patternStep (url : List Char) : Option (List Char) :=
  match matchAfter pat1 url with
  | some c => some c
  | none =>
    match matchAfter pat2 url with
    | some c => some c
    | none =>
      match matchAfter pat1 url with
      | some c => some c
      | none => bareId url

/-- The structured-URL branch of `extractVideoId`: on a `youtu.be` host it
returns the pathname with the leading `/` stripped (unconditionally, even
when that is empty); on a host containing `youtube.com` with path exactly
`/watch` it returns the `v` parameter when that is non-empty (JavaScript
truthiness); in every other case it produces nothing and `extractVideoId`
falls through to the textual patterns. -/
def urlBranch (url : List Char) : Option (List Char) :=
  match parseURL url with
  | none => none
  | some u =>
    if u.hostname == ("youtu.be".data) then some (u.pathname.drop 1)
    else if containsL ("youtube.com".data) u.hostname && u.pathname == ("/watch".data) then
      match getParam ("v".data) u.query with
      | some v => if v.isEmpty then none else some v
      | none => none
    else none

/-- `extractVideoId` from `src/worker/index.ts`: try the structured-URL
branch, then the textual patterns; `none` models the thrown
`Invalid YouTube URL or video ID` error. -/
def extractVideoId (url : List Char) : Option (List Char) :=
  match urlBranch url with
  | some r => some r
  | none => patternStep url

/-- The stream-format record shaped by the `/api/video/info` mapping and
consumed by `App.tsx`; optional numeric descriptors are `Option` so that
absent fields (JavaScript `undefined`) are representable. -/
structure StreamFormat where
  itag : Int
  quality : List Char
  mimeType : Option (List Char)
  hasVideo : Bool
  hasAudio : Bool
  contentLength : List Char
  bitrate : Option Int
  fps : Option Int
  width : Option Int
  height : Option Int
deriving DecidableEq

/-- `f.hasVideo && f.hasAudio`, the combined-format test used throughout
`App.tsx`. -/
def isComb (f : StreamFormat) : Bool :=
  f.hasVideo && f.hasAudio

/-- `f.height || 0`: the height with JavaScript falsy defaulting (an
absent height reads as 0; a present height of 0 is also 0). -/
def heightD (f : StreamFormat) : Int :=
  f.height.getD 0

/-- Insertion step of a stable sort under the comparator
`(a, b) ↦ (b.height || 0) - (a.height || 0)`: `x` goes before the first
element whose height is at most that of `x`, so among equal heights the earlier
input element stays first. -/
def insertByDesc (x : StreamFormat) : List StreamFormat → List StreamFormat
  | [] => [x]
  | y :: ys => if heightD y ≤ heightD x then x :: y :: ys else y :: insertByDesc x ys

/-- Stable sort by descending defaulted height, modelling the ES2019
`Array.prototype.sort` (required stable) call in `getBestFormat`. -/
def sortD : List StreamFormat → List StreamFormat
  | [] => []
  | x :: xs => insertByDesc x (sortD xs)

/-- `getBestFormat` from `App.tsx`: the head of the combined formats
sorted by descending height, else the first element of the raw list, else
nothing. -/
def getBestFormat (l : List StreamFormat) : Option StreamFormat :=
  match (sortD (l.filter isComb)).head? with
  | some f => some f
  | none => l.head?

/-- JavaScript `Array.prototype.slice(0, limit)`: a non-negative limit
truncates to at most `limit` elements; a negative limit counts from the
end of the array. -/
def jsSliceTo (limit : Int) (l : List StreamFormat) : List StreamFormat :=
  l.take (if limit < 0 then max 0 ((l.length : Int) + limit) else min limit (l.length : Int)).toNat

/-- The formats-list computation of `App.tsx` (lines 200–203 and 240–246):
filter to combined formats, `slice(0, limit)` them for display (the source
instantiates `limit` with the literal 10), and count all qualifying
combined formats for the "showing N of M" note. -/
def presentableList (l : List StreamFormat) (limit : Int) : List StreamFormat × Nat :=
  (jsSliceTo limit (l.filter isComb), (l.filter isComb).length)

/-- The `container` field mapping of `/api/video/info`
(`format.mime_type?.split(';')[0]?.split('/')[1] || 'unknown'`):
split the mime type at `;`, take the leading part, split that at `/`,
take the second component; absent mime type, a missing second component,
or an empty one (JavaScript falsy) all yield `"unknown"`. -/
def container (mimeType : Option (List Char)) : List Char :=
  match mimeType with
  | none => "unknown".data
  | some s =>
    match splitOnChar '/' ((splitOnChar ';' s).headD []) with
    | _ :: sub :: _ => if sub.isEmpty then ("unknown".data) else sub
    | _ => "unknown".data

/-- The reading of the specification sentence for `container`: "taking the
text after the `/` and before any `;`; if `mimeType` is absent or
malformed (e.g. contains no `/`), yields `unknown`".  Stated from the
spec's words, to be compared with the source's `container`. -/
def containerSpecC7 (mimeType : Option (List Char)) : List Char :=
  match mimeType with
  | none => "unknown".data
  | some s =>
    if s.contains '/' then
      ((s.dropWhile (fun c => !(c == '/'))).drop 1).takeWhile (fun c => !(c == ';'))
    else ("unknown".data)

/-- JavaScript whitespace accepted and skipped by `parseInt`, restricted
to the ASCII white space characters; the full StrWhiteSpace class also
contains non-ASCII characters (NBSP, BOM, Unicode spaces), which this
model classifies as non-numeric. -/
def isWsJS (c : Char) : Bool :=
  c == ' ' || c == '\t' || c == '\n' || c == '\r' || c == '\x0b' || c == '\x0c'

/-- Decimal digit value. -/
def digitVal (c : Char) : Option Nat :=
  if c.isDigit then some (c.toNat - 48) else none

/-- Hexadecimal digit value. -/
def hexVal (c : Char) : Option Nat :=
  if c.isDigit then some (c.toNat - 48)
  else if 'a' ≤ c && c ≤ 'f' then some (c.toNat - 87)
  else if 'A' ≤ c && c ≤ 'F' then some (c.toNat - 55)
  else none

/-- Accumulate digits of the given base until a non-digit. -/
def readNatAux (base : Nat) (val : Char → Option Nat) : List Char → Nat → Nat
  | [], acc => acc
  | c :: cs, acc =>
    match val c with
    | some d => readNatAux base val cs (acc * base + d)
    | none => acc

/-- Read at least one digit of the given base; `none` when the first
character is not a digit. -/
def readNat (base : Nat) (val : Char → Option Nat) : List Char → Option Nat
  | [] => none
  | c :: cs =>
    match val c with
    | some d => some (readNatAux base val cs d)
    | none => none

/-- Model of JavaScript `parseInt(s)` (radix defaulted): skip whitespace,
read an optional sign, switch to hexadecimal after a `0x`/`0X` prefix,
then read the maximal digit run; `none` models `NaN`.  The result is kept
as an exact integer; `parseInt` returns a double, which agrees below
2^53 — far above every byte count at issue. -/
def jsParseInt (s : List Char) : Option Int :=
  let s1 := s.dropWhile isWsJS
  match s1 with
  | '-' :: t => (readBody t).map (fun m => -(m : Int))
  | '+' :: t => (readBody t).map (fun m => (m : Int))
  | _ => (readBody s1).map (fun m => (m : Int))
where
  readBody : List Char → Option Nat
  | '0' :: 'x' :: t => readNat 16 hexVal t
  | '0' :: 'X' :: t => readNat 16 hexVal t
  | l => readNat 10 digitVal l

/-- `Math.floor(Math.log n / Math.log 1024)` for `n ≥ 1`, modelled as the
exact base-1024 floor logarithm computed with a structural fuel (any fuel
with `n < 1024 ^ fuel` is enough; `formatBytes` passes the digit count of
its input, which always suffices).  At the powers of 1024 reached in the
theorems below the double-precision quotient is exactly the mathematical
one, since `Math.log (1024 ^ k) / Math.log 1024` rounds to exactly `k`. -/
def logIdx : Nat → Nat → Nat
  | 0, _ => 0
  | fuel + 1, n => if n < 1024 then 0 else logIdx fuel (n / 1024) + 1

/-- Decimal digits of a positive number, most significant first. -/
def digitsAux : Nat → Nat → List Char
  | 0, _ => []
  | fuel + 1, n =>
    if n < 10 then [Char.ofNat (48 + n)]
    else digitsAux fuel (n / 10) ++ [Char.ofNat (48 + n % 10)]

/-- Decimal representation of a natural number. -/
def natRepr (n : Nat) : List Char :=
  if n == 0 then ['0'] else digitsAux (n + 1) n

/-- Render `m / 100` the way JavaScript prints
`Math.round(x * 100) / 100`: an integer prints bare, otherwise one or two
decimals with trailing zeros dropped (shortest round-trip printing of the
resulting double). -/
def hundredthsRepr (m : Nat) : List Char :=
  let w := m / 100
  let fr := m % 100
  if fr == 0 then natRepr w
  else if fr % 10 == 0 then natRepr w ++ '.' :: natRepr (fr / 10)
  else if fr < 10 then natRepr w ++ '.' :: '0' :: natRepr fr
  else natRepr w ++ '.' :: natRepr fr

/-- The unit labels of `formatBytes`. -/
def sizeUnits : List (List Char) :=
  [("Bytes".data), ("KB".data), ("MB".data), ("GB".data)]

/-- `formatBytes` from `App.tsx` (the spec's `humanSize`): parse the
string with `parseInt` (pass it through unchanged on `NaN`), special-case
0, index the unit by the floor base-1024 logarithm, and print the value
rounded to two decimals.  `sizes[i]` past the end is JavaScript
`undefined`, which string-concatenates as `"undefined"`; a negative
number makes `Math.log` return `NaN`, which floors to `NaN`, indexes
`undefined`, and prints `"NaN undefined"`.  Rounding is modelled exactly:
`Math.round (100 * n / 1024 ^ i)` as `(200 * n + 1024 ^ i) / (2 * 1024 ^ i)`
in integer division (round half up, exact at the scales involved). -/
def formatBytes (s : List Char) : List Char :=
  match jsParseInt s with
  | none => s
  | some n =>
    if n == 0 then ("0 Bytes".data)
    else if n < 0 then ("NaN undefined".data)
    else
      hundredthsRepr ((200 * n.toNat + 1024 ^ logIdx s.length n.toNat)
          / (2 * 1024 ^ logIdx s.length n.toNat))
        ++ ' ' :: ((sizeUnits.get? (logIdx s.length n.toNat)).getD ("undefined".data))

/-- Position `i` of `s` is a qualifying match site for a regex
`…pat([^&\n?#]+)`: the mandatory text occurs there, followed by at least
one capture character. -/
def qualAtB (pat s : List Char) (i : Nat) : Bool :=
  isPrefixL pat (s.drop i) && !(((s.drop i).drop pat.length).takeWhile capChar).isEmpty

/-- The first element of maximal defaulted height (earlier elements win
ties); the extensional description of the head of the stable descending
sort. -/
def firstMaxH : List StreamFormat → Option StreamFormat
  | [] => none
  | x :: xs =>
    match firstMaxH xs with
    | none => some x
    | some m => if heightD x < heightD m then some m else some x

/-- Concrete formats of the worked `bestCombined` example: tag 1, 360p,
combined. -/
def fmtC4a : StreamFormat := ⟨1, [], none, true, true, [], none, none, none, some 360⟩

/-- Tag 2, 1080p, combined. -/
def fmtC4b : StreamFormat := ⟨2, [], none, true, true, [], none, none, none, some 1080⟩

/-- Tag 3, 720p, video-only. -/
def fmtC4c : StreamFormat := ⟨3, [], none, true, false, [], none, none, none, some 720⟩

/-- A video-only format for the fallback example. -/
def fmtC5a : StreamFormat := ⟨1, [], none, true, false, [], none, none, none, some 720⟩

/-- A second video-only format for the fallback example. -/
def fmtC5b : StreamFormat := ⟨2, [], none, false, true, [], none, none, none, some 1080⟩

/-- Fifteen combined formats, tags 0–14, for the truncation example. -/
def c6sample : List StreamFormat :=
  (List.range 15).map (fun i => ⟨(i : Int), [], none, true, true, [], none, none, none, some 360⟩)

/-- A combined format for the negative-limit example. -/
def fmtC9 : StreamFormat := ⟨5, [], none, true, true, [], none, none, none, some 480⟩

end VC

namespace VC

/-! ### Generic list lemmas -/

theorem takeWhile_append_all {p : Char → Bool} {a : List Char} (h : ∀ c ∈ a, p c = true)
    (b : List Char) : (a ++ b).takeWhile p = a ++ b.takeWhile p := by
  induction a with
  | nil => simp
  | cons c cs ih =>
    have hc : p c = true := h c (by simp)
    simp only [List.cons_append, List.takeWhile_cons, hc, if_true]
    rw [ih (fun d hd => h d (by simp [hd]))]

theorem takeWhile_all {p : Char → Bool} {a : List Char} (h : ∀ c ∈ a, p c = true) :
    a.takeWhile p = a := by
  have := takeWhile_append_all h []
  simpa using this

theorem splitOnChar_sepFree {sep : Char} {a : List Char}
    (h : ∀ c ∈ a, (c == sep) = false) : splitOnChar sep a = [a] := by
  induction a with
  | nil => rfl
  | cons c cs ih =>
    have hc : (c == sep) = false := h c (by simp)
    simp [splitOnChar, hc, ih (fun d hd => h d (by simp [hd]))]

theorem splitOnChar_append_sep {sep : Char} {a : List Char}
    (h : ∀ c ∈ a, (c == sep) = false) (b : List Char) :
    splitOnChar sep (a ++ sep :: b) = a :: splitOnChar sep b := by
  induction a with
  | nil => simp [splitOnChar]
  | cons c cs ih =>
    have hc : (c == sep) = false := h c (by simp)
    simp [splitOnChar, hc, ih (fun d hd => h d (by simp [hd]))]

theorem splitOnChar_ne_nil (sep : Char) (l : List Char) : splitOnChar sep l ≠ [] := by
  induction l with
  | nil => simp [splitOnChar]
  | cons c cs ih =>
    simp only [splitOnChar]
    by_cases hc : (c == sep) = true
    · simp [hc]
    · simp only [hc, if_false]
      cases h : splitOnChar sep cs with
      | nil => exact absurd h ih
      | cons s ss => simp

theorem headD_splitOnChar (sep : Char) (l : List Char) :
    (splitOnChar sep l).headD [] = l.takeWhile (fun c => !(c == sep)) := by
  induction l with
  | nil => rfl
  | cons c cs ih =>
    by_cases hc : (c == sep) = true
    · simp [splitOnChar, hc, List.takeWhile_cons]
    · have hc' : (c == sep) = false := by simpa using hc
      simp only [splitOnChar, hc', if_false]
      cases h : splitOnChar sep cs with
      | nil => exact absurd h (splitOnChar_ne_nil sep cs)
      | cons s ss =>
        have hs : s = cs.takeWhile (fun c => !(c == sep)) := by
          rw [← ih, h]; rfl
        simp [List.takeWhile_cons, hc', hs]

theorem isPrefixL_mem {p : List Char} : ∀ {s : List Char}, isPrefixL p s = true →
    ∀ c ∈ p, c ∈ s := by
  induction p with
  | nil => simp
  | cons a ps ih =>
    intro s h c hc
    cases s with
    | nil => simp [isPrefixL] at h
    | cons b bs =>
      simp only [isPrefixL, Bool.and_eq_true, beq_iff_eq] at h
      obtain ⟨rfl, h2⟩ := h
      rcases List.mem_cons.mp hc with rfl | hc'
      · exact List.mem_cons_self _ _
      · exact List.mem_cons_of_mem _ (ih h2 c hc')

theorem matchAfter_mem {pat : List Char} : ∀ {s c : List Char},
    matchAfter pat s = some c → ∀ ch ∈ pat, ch ∈ s := by
  intro s
  induction s with
  | nil => intro c h; simp [matchAfter] at h
  | cons a as ih =>
    intro c h ch hch
    by_cases hp : isPrefixL pat (a :: as) = true
    · exact isPrefixL_mem hp ch hch
    · have hp' : isPrefixL pat (a :: as) = false := by simpa using hp
      simp only [matchAfter, hp', if_false] at h
      exact List.mem_cons_of_mem _ (ih h ch hch)

theorem idChar_beq_false {c d : Char} (h : idChar c = true) (hd : idChar d = false) :
    (c == d) = false := by
  refine beq_eq_false_iff_ne.mpr (fun he => ?_)
  subst he
  rw [h] at hd
  exact absurd hd (by decide)

end VC

namespace VC

/-! ### Evaluation of the structured branch on the two canonical templates -/

set_option maxHeartbeats 2000000 in
/-- On a canonical watch URL the structured branch reduces to reading the
`v` parameter from the query. -/
theorem urlBranch_watch (y : List Char) :
    urlBranch (("https://www.youtube.com/watch?v=".data) ++ y) =
      (match getParam ("v".data) ('v' :: '=' :: y.takeWhile (fun c => !(c == '#'))) with
       | some v => if v.isEmpty then none else some v
       | none => none) := rfl

set_option maxHeartbeats 2000000 in
/-- On a canonical short URL the structured branch returns the path after
the slash. -/
theorem urlBranch_short (y : List Char) :
    urlBranch (("https://youtu.be/".data) ++ y) = some (y.takeWhile pathChar) := rfl

/-- An identifier character is none of the structural characters. -/
theorem idChar_not_hash {c : Char} (h : idChar c = true) : (c == '#') = false :=
  idChar_beq_false h (by decide)

theorem idChar_not_amp {c : Char} (h : idChar c = true) : (c == '&') = false :=
  idChar_beq_false h (by decide)

theorem idChar_pathChar {c : Char} (h : idChar c = true) : pathChar c = true := by
  have h1 := idChar_beq_false h (show idChar '?' = false by decide)
  have h2 := idChar_beq_false h (show idChar '#' = false by decide)
  simp [pathChar, h1, h2]

/-- Reading `v` from a query `v=x` whose value contains no `&`. -/
theorem getParam_vx {x : List Char} (hamp : ∀ c ∈ x, (c == '&') = false) :
    getParam ("v".data) ('v' :: '=' :: x) = some x := by
  have hsf : ∀ c ∈ ('v' :: '=' :: x), (c == '&') = false := by
    intro c hc
    rcases List.mem_cons.mp hc with rfl | hc1
    · decide
    · rcases List.mem_cons.mp hc1 with rfl | hc2
      · decide
      · exact hamp c hc2
  unfold getParam
  rw [splitOnChar_sepFree hsf]
  rfl

/-- Reading `v` from a query `v=x&…`: further parameters after the first
`&` do not disturb the value. -/
theorem getParam_vx_amp {x : List Char} (hamp : ∀ c ∈ x, (c == '&') = false)
    (t : List Char) :
    getParam ("v".data) ('v' :: '=' :: (x ++ '&' :: t)) = some x := by
  have hsf : ∀ c ∈ ('v' :: '=' :: x), (c == '&') = false := by
    intro c hc
    rcases List.mem_cons.mp hc with rfl | hc1
    · decide
    · rcases List.mem_cons.mp hc1 with rfl | hc2
      · decide
      · exact hamp c hc2
  unfold getParam
  have he : 'v' :: '=' :: (x ++ '&' :: t) = ('v' :: '=' :: x) ++ '&' :: t := rfl
  rw [he, splitOnChar_append_sep hsf]
  rfl

end VC

namespace VC

/-- Claim C1: `resolveIdentifier` returns the identifier for every
canonical input form.  For every 11-character token `x` over
`[A-Za-z0-9_-]`: the watch URL `https://www.youtube.com/watch?v=x`
(possibly with further query parameters appended after `v`) resolves to
`x`, the short URL `https://youtu.be/x` resolves to `x`, and the bare
token `x` resolves to `x`. -/
theorem C1_canonical_forms :
    ∀ x : List Char, x.length = 11 → (∀ c ∈ x, idChar c = true) →
      (∀ rest : List Char, (rest = [] ∨ ∃ t, rest = '&' :: t) →
          extractVideoId (("https://www.youtube.com/watch?v=".data) ++ (x ++ rest)) = some x)
      ∧ extractVideoId (("https://youtu.be/".data) ++ x) = some x
      ∧ extractVideoId x = some x := by
  intro x hlen hx
  have hxne : x.isEmpty = false := by
    cases x with
    | nil => simp at hlen
    | cons a as => rfl
  have hamp : ∀ c ∈ x, (c == '&') = false := fun c hc => idChar_not_amp (hx c hc)
  refine ⟨?_, ?_, ?_⟩
  · intro rest hrest
    have hsharp : ∀ c ∈ x, ((fun c => !(c == '#')) c) = true := by
      intro c hc
      simp [idChar_not_hash (hx c hc)]
    unfold extractVideoId
    rw [urlBranch_watch (x ++ rest), takeWhile_append_all hsharp rest]
    rcases hrest with rfl | ⟨t, rfl⟩
    · simp only [List.takeWhile_nil, List.append_nil]
      rw [getParam_vx hamp]
      simp [hxne]
    · have ht : ('&' :: t).takeWhile (fun c => !(c == '#'))
          = '&' :: t.takeWhile (fun c => !(c == '#')) := rfl
      rw [ht, getParam_vx_amp hamp]
      simp [hxne]
  · have hpath : ∀ c ∈ x, pathChar c = true := fun c hc => idChar_pathChar (hx c hc)
    unfold extractVideoId
    rw [urlBranch_short x, takeWhile_all hpath]
  · have hnop : ∀ p : List Char, ':' ∈ p → isPrefixL p x = false := by
      intro p hp
      cases h : isPrefixL p x with
      | false => rfl
      | true =>
        have : ':' ∈ x := isPrefixL_mem h ':' hp
        have := hx ':' this
        exact absurd this (by decide)
    have hafter : afterScheme x = none := by
      unfold afterScheme
      rw [hnop _ (by decide), hnop _ (by decide)]
      rfl
    have hurl : urlBranch x = none := by
      unfold urlBranch parseURL
      rw [hafter]
    have hdot : ∀ pat : List Char, '.' ∈ pat → matchAfter pat x = none := by
      intro pat hp
      cases h : matchAfter pat x with
      | none => rfl
      | some c =>
        have : '.' ∈ x := matchAfter_mem h '.' hp
        have := hx '.' this
        exact absurd this (by decide)
    have hm1 : matchAfter pat1 x = none := hdot _ (by decide)
    have hm2 : matchAfter pat2 x = none := hdot _ (by decide)
    unfold extractVideoId
    rw [hurl]
    unfold patternStep
    rw [hm1, hm2]
    unfold bareId
    simp [hlen, List.all_eq_true.mpr hx]

/-- Witness for C1 at the token `dQw4w9WgXcQ` (and, for the inner
quantifier, at the suffix `&list=PLx`). -/
theorem C1_canonical_forms_witness :
    ((("dQw4w9WgXcQ".data) : List Char).length = 11
      ∧ (∀ c ∈ (("dQw4w9WgXcQ".data) : List Char), idChar c = true))
    ∧ ((∀ rest : List Char, (rest = [] ∨ ∃ t, rest = '&' :: t) →
          extractVideoId (("https://www.youtube.com/watch?v=".data)
              ++ (("dQw4w9WgXcQ".data) ++ rest)) = some ("dQw4w9WgXcQ".data))
        ∧ extractVideoId (("https://youtu.be/".data) ++ ("dQw4w9WgXcQ".data))
            = some ("dQw4w9WgXcQ".data)
        ∧ extractVideoId ("dQw4w9WgXcQ".data) = some ("dQw4w9WgXcQ".data)) :=
  ⟨⟨by decide, by decide⟩, C1_canonical_forms _ (by decide) (by decide)⟩

end VC

namespace VC

/-- Claim C3: the resolver fails exactly when neither the structured-URL
strategy nor the textual-pattern step yields a value; in particular it
fails on the empty string, on `https://example.com/`, and on a watch URL
whose `v` parameter is the empty string. -/
theorem C3_invalid_reference :
    (∀ s : List Char, extractVideoId s = none ↔ (urlBranch s = none ∧ patternStep s = none))
    ∧ extractVideoId [] = none
    ∧ extractVideoId ("https://example.com/".data) = none
    ∧ extractVideoId ("https://www.youtube.com/watch?v=".data) = none := by
  refine ⟨?_, by decide, by decide, by decide⟩
  intro s
  unfold extractVideoId
  cases h : urlBranch s with
  | some r => simp
  | none => simp

/-- Witness for C3 at a concrete unrecognized input. -/
theorem C3_invalid_reference_witness :
    extractVideoId ("https://example.com/x".data) = none ↔
      (urlBranch ("https://example.com/x".data) = none
        ∧ patternStep ("https://example.com/x".data) = none) :=
  C3_invalid_reference.1 _

/-- A qualifying match site makes `matchAfter` succeed. -/
theorem matchAfter_isSome {pat : List Char} : ∀ (s : List Char) (i : Nat),
    qualAtB pat s i = true → (matchAfter pat s).isSome = true := by
  intro s
  induction s with
  | nil =>
    intro i h
    simp [qualAtB] at h
  | cons a as ih =>
    intro i h
    cases i with
    | zero =>
      simp only [qualAtB, List.drop_zero, Bool.and_eq_true] at h
      obtain ⟨h1, h2⟩ := h
      simp only [matchAfter, h1, if_true]
      cases hcap : (((a :: as).drop pat.length).takeWhile capChar).isEmpty with
      | true => rw [hcap] at h2; exact absurd h2 (by decide)
      | false => simp [hcap]
    | succ j =>
      have h' : qualAtB pat as j = true := h
      have := ih j h'
      by_cases hp : isPrefixL pat (a :: as) = true
      · simp only [matchAfter, hp, if_true]
        cases hcap : (((a :: as).drop pat.length).takeWhile capChar).isEmpty with
        | true => simpa [hcap] using this
        | false => simp [hcap]
      · have hp' : isPrefixL pat (a :: as) = false := by simpa using hp
        simpa [matchAfter, hp'] using this

/-- At the first qualifying match site, `matchAfter` returns the maximal
capture run after the mandatory text. -/
theorem matchAfter_first {pat : List Char} : ∀ (s : List Char) (i : Nat),
    qualAtB pat s i = true → (∀ j, j < i → qualAtB pat s j = false) →
    matchAfter pat s = some (((s.drop i).drop pat.length).takeWhile capChar) := by
  intro s
  induction s with
  | nil =>
    intro i h
    simp [qualAtB] at h
  | cons a as ih =>
    intro i h hmin
    cases i with
    | zero =>
      simp only [qualAtB, List.drop_zero, Bool.and_eq_true] at h
      obtain ⟨h1, h2⟩ := h
      have hcap : (((a :: as).drop pat.length).takeWhile capChar).isEmpty = false := by
        cases hcap : (((a :: as).drop pat.length).takeWhile capChar).isEmpty with
        | true => rw [hcap] at h2; exact absurd h2 (by decide)
        | false => rfl
      simp [matchAfter, h1, hcap]
    | succ j =>
      have h0 := hmin 0 (Nat.succ_pos j)
      have h' : qualAtB pat as j = true := h
      have hmin' : ∀ j', j' < j → qualAtB pat as j' = false := by
        intro j' hj'
        exact hmin (j' + 1) (Nat.succ_lt_succ hj')
      have hrec := ih j h' hmin'
      by_cases hp : isPrefixL pat (a :: as) = true
      · have hcap : (((a :: as).drop pat.length).takeWhile capChar).isEmpty = true := by
          simp only [qualAtB, List.drop_zero, Bool.and_eq_true] at h0
          cases hcap : (((a :: as).drop pat.length).takeWhile capChar).isEmpty with
          | true => rfl
          | false => rw [hp, hcap] at h0; exact absurd h0 (by decide)
        simpa [matchAfter, hp, hcap] using hrec
      · have hp' : isPrefixL pat (a :: as) = false := by simpa using hp
        simpa [matchAfter, hp'] using hrec

/-- Claim C10 (amended): any input with a qualifying occurrence of
`youtube.com/watch?v=` (followed by at least one character outside
`& ? # newline`) makes the resolver succeed; and when the structured-URL
branch produces nothing, the value is the maximal capture run after the
first qualifying occurrence. -/
theorem C10_substring_match :
    (∀ (s : List Char) (i : Nat), qualAtB pat1 s i = true →
        ∃ r, extractVideoId s = some r)
    ∧ (∀ (s : List Char) (i : Nat), urlBranch s = none → qualAtB pat1 s i = true →
        (∀ j, j < i → qualAtB pat1 s j = false) →
        extractVideoId s = some (((s.drop i).drop pat1.length).takeWhile capChar)) := by
  constructor
  · intro s i h
    unfold extractVideoId
    cases hu : urlBranch s with
    | some r => exact ⟨r, rfl⟩
    | none =>
      have hs := matchAfter_isSome s i h
      cases hm : matchAfter pat1 s with
      | none => rw [hm] at hs; exact absurd hs (by decide)
      | some c =>
        refine ⟨c, ?_⟩
        unfold patternStep
        rw [hm]
  · intro s i hu h hmin
    have hm := matchAfter_first s i h hmin
    unfold extractVideoId
    rw [hu]
    unfold patternStep
    rw [hm]

/-- Witness for C10 (amended) at a URL on an unrelated host whose query
embeds a watch URL; the first qualifying occurrence is at index 24. -/
theorem C10_substring_match_witness :
    (urlBranch ("https://evil.example/?u=youtube.com/watch?v=abcdefghijk".data) = none
      ∧ qualAtB pat1 ("https://evil.example/?u=youtube.com/watch?v=abcdefghijk".data) 24 = true
      ∧ (∀ j, j < 24 →
          qualAtB pat1 ("https://evil.example/?u=youtube.com/watch?v=abcdefghijk".data) j = false))
    ∧ extractVideoId ("https://evil.example/?u=youtube.com/watch?v=abcdefghijk".data)
        = some (((("https://evil.example/?u=youtube.com/watch?v=abcdefghijk".data).drop 24).drop
            pat1.length).takeWhile capChar) :=
  ⟨⟨by decide, by decide, by decide⟩,
    C10_substring_match.2 _ 24 (by decide) (by decide) (by decide)⟩

/-- Counterexample to C10 as stated: this input contains
`youtube.com/watch?v=` followed by `abcdefghijk` (a qualifying occurrence
at index 18), yet the resolver returns the empty string — the `youtu.be`
structured branch wins and returns the stripped pathname `""`, not the
regex capture. -/
theorem C10_substring_match_counterexample :
    qualAtB pat1 ("https://youtu.be/?youtube.com/watch?v=abcdefghijk".data) 18 = true
    ∧ ((("https://youtu.be/?youtube.com/watch?v=abcdefghijk".data).drop 18).drop
        pat1.length).takeWhile capChar = ("abcdefghijk".data)
    ∧ extractVideoId ("https://youtu.be/?youtube.com/watch?v=abcdefghijk".data) = some []
    ∧ ([] : List Char) ≠ ("abcdefghijk".data) := by
  exact ⟨by decide, by decide, by decide, by decide⟩

end VC

namespace VC

/-- `takeWhile` yields an initial segment of its input. -/
theorem takeWhile_pre (p : Char → Bool) (l : List Char) : l.takeWhile p <+: l :=
  List.takeWhile_prefix p

/-- A regex capture is a contiguous substring of the scanned string. -/
theorem matchAfter_substring {pat : List Char} : ∀ {s c : List Char},
    matchAfter pat s = some c → c <:+: s := by
  intro s
  induction s with
  | nil => intro c h; simp [matchAfter] at h
  | cons a as ih =>
    intro c h
    by_cases hp : isPrefixL pat (a :: as) = true
    · cases hcap : (((a :: as).drop pat.length).takeWhile capChar).isEmpty with
      | true =>
        simp only [matchAfter, hp, hcap, if_true, if_false] at h
        exact (ih h).trans (List.suffix_cons a as).isInfix
      | false =>
        simp only [matchAfter, hp, hcap, if_true, if_false] at h
        cases h
        exact ((takeWhile_pre capChar _).isInfix).trans
          (List.drop_suffix pat.length (a :: as)).isInfix
    · have hp' : isPrefixL pat (a :: as) = false := by simpa using hp
      simp only [matchAfter, hp', if_false] at h
      exact (ih h).trans (List.suffix_cons a as).isInfix

/-- Claim C2 (amended): the resolver validates the identifier shape only
in the bare-identifier strategy.  It can succeed with values that are
shorter, longer, or empty: the structured branch copies the pathname or
the `v` parameter through the URL object without any shape check (here
`abc`, of length 3, and the empty string).  When the structured branch
produces nothing, a value coming from the textual patterns is a verbatim
contiguous substring of the raw input (regular-expression matching works
on the raw string and performs no decoding), and when only the anchored
bare-identifier pattern applies the value is the whole input: exactly 11
characters over `[A-Za-z0-9_-]`. -/
theorem C2_returned_shape :
    extractVideoId ("https://youtu.be/abc".data) = some ("abc".data)
    ∧ extractVideoId ("https://youtu.be/".data) = some []
    ∧ (∀ s r : List Char, urlBranch s = none → extractVideoId s = some r → r <:+: s)
    ∧ (∀ s r : List Char, urlBranch s = none → matchAfter pat1 s = none →
        matchAfter pat2 s = none → extractVideoId s = some r →
        r = s ∧ r.length = 11 ∧ ∀ c ∈ r, idChar c = true) := by
  refine ⟨by decide, by decide, ?_, ?_⟩
  · intro s r hu h
    unfold extractVideoId at h
    simp only [hu] at h
    unfold patternStep at h
    cases hm1 : matchAfter pat1 s with
    | some c =>
      simp only [hm1] at h
      obtain rfl := Option.some.inj h
      exact matchAfter_substring hm1
    | none =>
      simp only [hm1] at h
      cases hm2 : matchAfter pat2 s with
      | some c =>
        simp only [hm2] at h
        obtain rfl := Option.some.inj h
        exact matchAfter_substring hm2
      | none =>
        simp only [hm2] at h
        unfold bareId at h
        split at h
        · obtain rfl := Option.some.inj h
          exact List.infix_refl _
        · exact absurd h (by simp)
  · intro s r hu hm1 hm2 h
    unfold extractVideoId at h
    simp only [hu] at h
    unfold patternStep at h
    simp only [hm1, hm2] at h
    unfold bareId at h
    split at h
    · rename_i hcond
      obtain rfl := Option.some.inj h
      simp only [Bool.and_eq_true, beq_iff_eq] at hcond
      exact ⟨rfl, hcond.1, List.all_eq_true.mp hcond.2⟩
    · exact absurd h (by simp)

/-- Witness for C2 (amended): on the schemeless input
`youtube.com/watch?v=abcdefghijk` the structured branch produces nothing
and the first pattern captures the verbatim substring `abcdefghijk`. -/
theorem C2_returned_shape_witness :
    (urlBranch ("youtube.com/watch?v=abcdefghijk".data) = none
      ∧ extractVideoId ("youtube.com/watch?v=abcdefghijk".data) = some ("abcdefghijk".data))
    ∧ (("abcdefghijk".data) : List Char) <:+: ("youtube.com/watch?v=abcdefghijk".data) :=
  ⟨⟨by decide, by decide⟩, C2_returned_shape.2.2.1 _ _ (by decide) (by decide)⟩

/-- Counterexample to C2 as stated: the resolver succeeds on
`https://youtu.be/abc` with the 3-character value `abc`, not an
11-character identifier. -/
theorem C2_returned_shape_counterexample :
    extractVideoId ("https://youtu.be/abc".data) = some ("abc".data)
    ∧ ((("abc".data) : List Char).length = 11 → False) := by
  exact ⟨by decide, by decide⟩

end VC

namespace VC

/-- Head of the insertion step. -/
theorem head_insertByDesc (x y : StreamFormat) (ys : List StreamFormat) :
    (insertByDesc x (y :: ys)).head? = some (if heightD y ≤ heightD x then x else y) := by
  simp only [insertByDesc]
  split <;> rename_i h <;> simp [h]

/-- The head of the stable descending sort is the first element of
maximal defaulted height. -/
theorem head_sortD : ∀ l : List StreamFormat, (sortD l).head? = firstMaxH l := by
  intro l
  induction l with
  | nil => rfl
  | cons x xs ih =>
    rw [show sortD (x :: xs) = insertByDesc x (sortD xs) from rfl]
    rw [show firstMaxH (x :: xs) = (match firstMaxH xs with
        | none => some x
        | some m => if heightD x < heightD m then some m else some x) from rfl]
    cases hs : sortD xs with
    | nil =>
      have hfm : firstMaxH xs = none := by rw [← ih, hs]; rfl
      rw [hfm]
      rfl
    | cons y ys =>
      have hfm : firstMaxH xs = some y := by rw [← ih, hs]; rfl
      rw [hfm, head_insertByDesc]
      dsimp only
      by_cases hle : heightD y ≤ heightD x
      · rw [if_pos hle, if_neg (not_lt.mpr hle)]
      · rw [if_neg hle, if_pos (not_le.mp hle)]

/-- `firstMaxH` never fails on a non-empty list. -/
theorem firstMaxH_ne_none (x : StreamFormat) (xs : List StreamFormat) :
    firstMaxH (x :: xs) ≠ none := by
  simp only [firstMaxH]
  cases h : firstMaxH xs with
  | none => simp
  | some m => dsimp only; split <;> simp

/-- The element chosen by `firstMaxH` bounds all heights, and everything
before it is strictly lower. -/
theorem firstMaxH_mem_max : ∀ {l : List StreamFormat} {m : StreamFormat},
    firstMaxH l = some m →
    (∀ f ∈ l, heightD f ≤ heightD m)
    ∧ ∃ l1 l2, l = l1 ++ m :: l2 ∧ ∀ f ∈ l1, heightD f < heightD m := by
  intro l
  induction l with
  | nil => intro m h; simp [firstMaxH] at h
  | cons x xs ih =>
    intro m h
    simp only [firstMaxH] at h
    cases hfm : firstMaxH xs with
    | none =>
      rw [hfm] at h
      dsimp only at h
      obtain rfl := Option.some.inj h
      cases xs with
      | nil =>
        refine ⟨?_, [], [], rfl, by simp⟩
        intro f hf
        rcases List.mem_cons.mp hf with rfl | hf'
        · exact le_refl _
        · simp at hf'
      | cons a as => exact absurd hfm (firstMaxH_ne_none a as)
    | some m' =>
      rw [hfm] at h
      dsimp only at h
      obtain ⟨hle', hex⟩ := ih hfm
      obtain ⟨l1, l2, hsplit, hlt⟩ := hex
      by_cases hc : heightD x < heightD m'
      · rw [if_pos hc] at h
        obtain rfl := Option.some.inj h
        refine ⟨?_, x :: l1, l2, by rw [hsplit, List.cons_append], ?_⟩
        · intro f hf
          rcases List.mem_cons.mp hf with rfl | hf'
          · exact le_of_lt hc
          · exact hle' f hf'
        · intro f hf
          rcases List.mem_cons.mp hf with rfl | hf'
          · exact hc
          · exact hlt f hf'
      · rw [if_neg hc] at h
        obtain rfl := Option.some.inj h
        have hge : heightD m' ≤ heightD x := not_lt.mp hc
        refine ⟨?_, [], xs, rfl, by simp⟩
        intro f hf
        rcases List.mem_cons.mp hf with rfl | hf'
        · exact le_refl _
        · exact le_trans (hle' f hf') hge

/-- Split a filtered list back into the original. -/
theorem filter_decomp {p : StreamFormat → Bool} : ∀ {l L1 L2 : List StreamFormat}
    {m : StreamFormat}, l.filter p = L1 ++ m :: L2 →
    ∃ l1 l2, l = l1 ++ m :: l2 ∧ l1.filter p = L1 ∧ l2.filter p = L2 := by
  intro l
  induction l with
  | nil =>
    intro L1 L2 m h
    rw [List.filter_nil] at h
    exact absurd h.symm (by simp)
  | cons x xs ih =>
    intro L1 L2 m h
    by_cases hp : p x = true
    · rw [List.filter_cons_of_pos hp] at h
      cases L1 with
      | nil =>
        simp only [List.nil_append] at h
        obtain ⟨rfl, hrest⟩ := List.cons_eq_cons.mp h
        exact ⟨[], xs, rfl, rfl, hrest⟩
      | cons a L1' =>
        simp only [List.cons_append] at h
        obtain ⟨rfl, h2⟩ := List.cons_eq_cons.mp h
        obtain ⟨l1, l2, hl, hf1, hf2⟩ := ih h2
        exact ⟨x :: l1, l2, by rw [hl, List.cons_append],
          by rw [List.filter_cons_of_pos hp, hf1], hf2⟩
    · have hp' : ¬ p x = true := hp
      rw [List.filter_cons_of_neg hp'] at h
      obtain ⟨l1, l2, hl, hf1, hf2⟩ := ih h
      exact ⟨x :: l1, l2, by rw [hl, List.cons_append],
        by rw [List.filter_cons_of_neg hp', hf1], hf2⟩

/-- Claim C4: `bestCombined` returns the combined format of greatest
height, ties broken by input order (a stable max-by-height over the
formats with both capabilities); formats lacking a capability never win.
The worked example returns the tag-2 format. -/
theorem C4_bestCombined :
    (∀ l : List StreamFormat, (∃ f ∈ l, isComb f = true) →
      ∃ g, getBestFormat l = some g ∧ isComb g = true
        ∧ (∀ f ∈ l, isComb f = true → heightD f ≤ heightD g)
        ∧ ∃ l1 l2, l = l1 ++ g :: l2 ∧ ∀ f ∈ l1, isComb f = true → heightD f < heightD g)
    ∧ getBestFormat [fmtC4a, fmtC4b, fmtC4c] = some fmtC4b := by
  constructor
  · rintro l ⟨f0, hf0, hc0⟩
    have hmem : f0 ∈ l.filter isComb := List.mem_filter.mpr ⟨hf0, hc0⟩
    cases hfm : firstMaxH (l.filter isComb) with
    | none =>
      exfalso
      cases hfl : l.filter isComb with
      | nil => rw [hfl] at hmem; simp at hmem
      | cons a as => rw [hfl] at hfm; exact absurd hfm (firstMaxH_ne_none a as)
    | some m =>
      have hbest : getBestFormat l = some m := by
        unfold getBestFormat
        rw [head_sortD, hfm]
      obtain ⟨hle, hex⟩ := firstMaxH_mem_max hfm
      obtain ⟨L1, L2, hsplit, hlt⟩ := hex
      obtain ⟨l1, l2, hl, hf1, hf2⟩ := filter_decomp hsplit
      have hmc : isComb m = true := by
        have hmm : m ∈ l.filter isComb := by
          rw [hsplit]
          exact List.mem_append_right _ (List.mem_cons_self _ _)
        exact (List.mem_filter.mp hmm).2
      refine ⟨m, hbest, hmc, ?_, l1, l2, hl, ?_⟩
      · intro f hf hcf
        exact hle f (List.mem_filter.mpr ⟨hf, hcf⟩)
      · intro f hf hcf
        have hff : f ∈ l1.filter isComb := List.mem_filter.mpr ⟨hf, hcf⟩
        rw [hf1] at hff
        exact hlt f hff
  · decide

/-- Witness for C4 at the worked three-format example. -/
theorem C4_bestCombined_witness :
    (∃ f ∈ [fmtC4a, fmtC4b, fmtC4c], isComb f = true)
    ∧ ∃ g, getBestFormat [fmtC4a, fmtC4b, fmtC4c] = some g ∧ isComb g = true
        ∧ (∀ f ∈ [fmtC4a, fmtC4b, fmtC4c], isComb f = true → heightD f ≤ heightD g)
        ∧ ∃ l1 l2, [fmtC4a, fmtC4b, fmtC4c] = l1 ++ g :: l2
            ∧ ∀ f ∈ l1, isComb f = true → heightD f < heightD g :=
  ⟨⟨fmtC4a, by decide, by decide⟩,
   C4_bestCombined.1 _ ⟨fmtC4a, by decide, by decide⟩⟩

/-- Claim C5: with no combined format, `bestCombined` returns the first
element of the raw input list, and nothing on the empty list. -/
theorem C5_fallback :
    (∀ l : List StreamFormat, (∀ f ∈ l, isComb f = false) → getBestFormat l = l.head?)
    ∧ getBestFormat ([] : List StreamFormat) = none := by
  constructor
  · intro l h
    have hfl : l.filter isComb = [] := by
      rw [List.filter_eq_nil_iff]
      intro a ha
      simp [h a ha]
    unfold getBestFormat
    rw [hfl]
    rfl
  · rfl

/-- Witness for C5 at a two-element list with no combined format. -/
theorem C5_fallback_witness :
    (∀ f ∈ [fmtC5a, fmtC5b], isComb f = false)
    ∧ getBestFormat [fmtC5a, fmtC5b] = [fmtC5a, fmtC5b].head? :=
  ⟨by decide, C5_fallback.1 _ (by decide)⟩

end VC

namespace VC

/-- Claim C6: `presentableList(limit)` is exactly the combined formats in
original order, truncated to at most `limit`, and the reported total is
the number of combined formats; the 15-combined/limit-10 example returns
the first 10 and reports 15. -/
theorem C6_presentable :
    (∀ (l : List StreamFormat) (n : Nat),
        (presentableList l (n : Int)).1 = (l.filter isComb).take n
        ∧ (presentableList l (n : Int)).1.length = min n (l.filter isComb).length
        ∧ (presentableList l (n : Int)).2 = (l.filter isComb).length)
    ∧ presentableList c6sample 10 = (c6sample.take 10, 15) := by
  constructor
  · intro l n
    have htake : (presentableList l (n : Int)).1 = (l.filter isComb).take n := by
      unfold presentableList jsSliceTo
      rw [if_neg (by omega : ¬((n : Int) < 0))]
      have htn : (min (n : Int) (((l.filter isComb).length : Nat) : Int)).toNat
          = min n (l.filter isComb).length := by omega
      rw [htn]
      rcases Nat.le_total n (l.filter isComb).length with hle | hle
      · rw [Nat.min_eq_left hle]
      · rw [Nat.min_eq_right hle, List.take_length, List.take_of_length_le hle]
    refine ⟨htake, ?_, rfl⟩
    rw [htake]
    exact List.length_take _ _
  · rfl

/-- Claim C7 (amended): `container` is determined solely by the mime
type, yielding the text between the first `/` and the next `/` or `;`
(the second `/`-component of the part before any `;`), with `unknown`
for an absent mime type, a mime type with no `/`, or an empty component.
The claim's worked examples hold. -/
theorem C7_container :
    (∀ a b c : List Char,
        (∀ ch ∈ a, (ch == '/') = false) → (∀ ch ∈ a, (ch == ';') = false) →
        (∀ ch ∈ b, (ch == '/') = false) → (∀ ch ∈ b, (ch == ';') = false) →
        b ≠ [] → (c = [] ∨ (∃ t, c = ';' :: t) ∨ (∃ t, c = '/' :: t)) →
        container (some (a ++ '/' :: (b ++ c))) = b)
    ∧ (∀ s : List Char, (∀ ch ∈ s, (ch == '/') = false) →
        container (some s) = ("unknown".data))
    ∧ container (some ("video/mp4; codecs=\"avc1\"".data)) = ("mp4".data)
    ∧ container none = ("unknown".data) := by
  refine ⟨?_, ?_, by decide, rfl⟩
  · intro a b c ha1 ha2 hb1 hb2 hbne hc
    have hsemiA : ∀ ch ∈ a, ((fun d => !(d == ';')) ch) = true := fun ch h => by
      simp [ha2 ch h]
    have hsemiB : ∀ ch ∈ b, ((fun d => !(d == ';')) ch) = true := fun ch h => by
      simp [hb2 ch h]
    unfold container
    dsimp only
    rw [headD_splitOnChar]
    rw [takeWhile_append_all hsemiA]
    rw [show ('/' :: (b ++ c)).takeWhile (fun d => !(d == ';'))
        = '/' :: (b ++ c).takeWhile (fun d => !(d == ';')) from rfl]
    rw [takeWhile_append_all hsemiB]
    rw [splitOnChar_append_sep ha1]
    cases hsp : splitOnChar '/' (b ++ c.takeWhile (fun d => !(d == ';'))) with
    | nil => exact absurd hsp (splitOnChar_ne_nil _ _)
    | cons s0 ss =>
      have hs0 : s0 = (b ++ c.takeWhile (fun d => !(d == ';'))).takeWhile
          (fun d => !(d == '/')) := by
        have hh := headD_splitOnChar '/' (b ++ c.takeWhile (fun d => !(d == ';')))
        rw [hsp] at hh
        simpa using hh
      have hslashB : ∀ ch ∈ b, ((fun d => !(d == '/')) ch) = true := fun ch h => by
        simp [hb1 ch h]
      have htc : (c.takeWhile (fun d => !(d == ';'))).takeWhile (fun d => !(d == '/'))
          = [] := by
        rcases hc with rfl | ⟨t, rfl⟩ | ⟨t, rfl⟩
        · rfl
        · rfl
        · rfl
      have hs0b : s0 = b := by
        rw [hs0, takeWhile_append_all hslashB, htc, List.append_nil]
      have hbe : b.isEmpty = false := by
        cases b with
        | nil => exact absurd rfl hbne
        | cons _ _ => rfl
      dsimp only
      rw [hs0b]
      simp [hbe]
  · intro s hs
    unfold container
    dsimp only
    rw [headD_splitOnChar]
    have hsf : ∀ ch ∈ s.takeWhile (fun d => !(d == ';')), (ch == '/') = false :=
      fun ch h => hs ch (List.takeWhile_subset _ h)
    rw [splitOnChar_sepFree hsf]

/-- Witness for C7 (amended) at `video` / `mp4` / `; codecs`. -/
theorem C7_container_witness :
    ((∀ ch ∈ (("video".data) : List Char), (ch == '/') = false)
      ∧ (∀ ch ∈ (("video".data) : List Char), (ch == ';') = false)
      ∧ (∀ ch ∈ (("mp4".data) : List Char), (ch == '/') = false)
      ∧ (∀ ch ∈ (("mp4".data) : List Char), (ch == ';') = false)
      ∧ (("mp4".data) : List Char) ≠ []
      ∧ ((("; codecs".data) : List Char) = []
          ∨ (∃ t, (("; codecs".data) : List Char) = ';' :: t)
          ∨ (∃ t, (("; codecs".data) : List Char) = '/' :: t)))
    ∧ container (some (("video".data) ++ '/' :: (("mp4".data) ++ ("; codecs".data))))
        = ("mp4".data) :=
  ⟨⟨by decide, by decide, by decide, by decide, by decide,
    Or.inr (Or.inl ⟨(" codecs".data), by decide⟩)⟩,
   C7_container.1 _ _ _ (by decide) (by decide) (by decide) (by decide) (by decide)
     (Or.inr (Or.inl ⟨(" codecs".data), by decide⟩))⟩

/-- Counterexample to C7 as stated: for the mime type `video/x/y` the
text after the `/` and before any `;` is `x/y`, but the code takes only
the component between the first and second `/` and yields `x`. -/
theorem C7_container_counterexample :
    container (some ("video/x/y".data)) = ("x".data)
    ∧ containerSpecC7 (some ("video/x/y".data)) = ("x/y".data)
    ∧ (("x".data) : List Char) ≠ ("x/y".data) := by
  exact ⟨by decide, by decide, by decide⟩

end VC

namespace VC

/-- The fuelled floor logarithm never overshoots: below `1024 ^ (k + 1)`
the index is at most `k` (for any fuel). -/
theorem logIdx_le : ∀ (fuel m k : Nat), m < 1024 ^ (k + 1) → logIdx fuel m ≤ k := by
  intro fuel
  induction fuel with
  | zero => intro m k _; simp [logIdx]
  | succ f ih =>
    intro m k h
    simp only [logIdx]
    split
    · exact Nat.zero_le k
    · rename_i hm
      have hm' : 1024 ≤ m := Nat.le_of_not_lt hm
      cases k with
      | zero =>
        exfalso
        have h1 : 1024 ^ (0 + 1) = 1024 := by norm_num
        omega
      | succ k' =>
        have hpow : 1024 ^ (k' + 1 + 1) = 1024 ^ (k' + 1) * 1024 := by ring
        have hdiv : m / 1024 < 1024 ^ (k' + 1) := by
          rw [hpow] at h
          exact Nat.div_lt_of_lt_mul (by omega)
        have := ih (m / 1024) k' hdiv
        omega

/-- On a positive parse the output is the rounded value and the indexed
unit label. -/
theorem formatBytes_pos {s : List Char} {n : Int} (hp : jsParseInt s = some n)
    (hpos : 0 < n) :
    formatBytes s = hundredthsRepr ((200 * n.toNat + 1024 ^ logIdx s.length n.toNat)
          / (2 * 1024 ^ logIdx s.length n.toNat))
        ++ ' ' :: ((sizeUnits.get? (logIdx s.length n.toNat)).getD ("undefined".data)) := by
  unfold formatBytes
  simp only [hp]
  have h1 : (n == 0) = false := beq_eq_false_iff_ne.mpr (by omega)
  simp only [h1, Bool.false_eq_true, if_false]
  rw [if_neg (by omega : ¬(n < 0))]

/-- Claim C8 (amended): for a decimal input below `1024 ^ 4` the output
carries one of the four unit labels with base-1024 scaling rounded to two
decimals; the worked examples hold, and non-numeric input passes through
unchanged. -/
theorem C8_humanSize :
    (∀ (s : List Char) (n : Int), jsParseInt s = some n → 0 < n → n < 1024 ^ 4 →
        ∃ u ∈ sizeUnits, ∃ v, formatBytes s = v ++ ' ' :: u)
    ∧ formatBytes ("0".data) = ("0 Bytes".data)
    ∧ formatBytes ("1048576".data) = ("1 MB".data)
    ∧ formatBytes ("abc".data) = ("abc".data)
    ∧ (∀ s : List Char, jsParseInt s = none → formatBytes s = s) := by
  refine ⟨?_, by decide, by decide, by decide, ?_⟩
  · intro s n hp hpos hlt
    have hi : logIdx s.length n.toNat ≤ 3 := by
      apply logIdx_le
      have h4 : (1024 : Int) ^ 4 = 1099511627776 := by norm_num
      have h4n : (1024 : Nat) ^ (3 + 1) = 1099511627776 := by norm_num
      omega
    have hsome : (sizeUnits.get? (logIdx s.length n.toNat)).isSome = true := by
      have hball : ∀ i : Nat, i ≤ 3 → (sizeUnits.get? i).isSome = true := by decide
      exact hball _ hi
    obtain ⟨u, hu⟩ := Option.isSome_iff_exists.mp hsome
    refine ⟨u, List.get?_mem hu,
      hundredthsRepr ((200 * n.toNat + 1024 ^ logIdx s.length n.toNat)
        / (2 * 1024 ^ logIdx s.length n.toNat)), ?_⟩
    rw [formatBytes_pos hp hpos, hu]
    rfl
  · intro s h
    unfold formatBytes
    simp only [h]

/-- Witness for C8 (amended) at the input `2048`. -/
theorem C8_humanSize_witness :
    (jsParseInt ("2048".data) = some 2048 ∧ (0 : Int) < 2048
      ∧ (2048 : Int) < 1024 ^ 4)
    ∧ ∃ u ∈ sizeUnits, ∃ v, formatBytes ("2048".data) = v ++ ' ' :: u :=
  ⟨⟨by decide, by norm_num, by norm_num⟩,
   C8_humanSize.1 _ 2048 (by decide) (by norm_num) (by norm_num)⟩

/-- Counterexample to C8 as stated: the numeric input `1099511627776`
(one TiB, a perfectly valid decimal byte count) produces the label
`1 undefined` — none of `Bytes`, `KB`, `MB`, `GB` appears, because
`sizes[4]` is out of bounds. -/
theorem C8_humanSize_counterexample :
    jsParseInt ("1099511627776".data) = some 1099511627776
    ∧ formatBytes ("1099511627776".data) = ("1 undefined".data)
    ∧ (∀ u ∈ sizeUnits, ¬ u <:+ (("1 undefined".data) : List Char)) := by
  exact ⟨by decide, by decide, by decide⟩

/-- Claim C9 (amended): `presentableList` never signals an error; a
negative limit is interpreted by `Array.prototype.slice` as counting
from the end, so `slice(0, -k)` simply drops the last `k` combined
formats, and the reported total is unchanged. -/
theorem C9_negative_limit :
    ∀ (l : List StreamFormat) (m : Int), m < 0 →
      (presentableList l m).1
          = (l.filter isComb).take ((l.filter isComb).length - m.natAbs)
      ∧ (presentableList l m).2 = (l.filter isComb).length := by
  intro l m hm
  refine ⟨?_, rfl⟩
  unfold presentableList jsSliceTo
  rw [if_pos hm]
  have he : (max 0 (((l.filter isComb).length : Int) + m)).toNat
      = (l.filter isComb).length - m.natAbs := by
    rcases le_total (0 : Int) (((l.filter isComb).length : Int) + m) with hge | hle
    · rw [max_eq_right hge]
      omega
    · rw [max_eq_left hle]
      omega
  rw [he]

/-- Witness for C9 (amended) at limit `-1` over two combined formats. -/
theorem C9_negative_limit_witness :
    ((-1 : Int) < 0)
    ∧ ((presentableList [fmtC9, fmtC9] (-1)).1
          = (([fmtC9, fmtC9].filter isComb).take
              ((([fmtC9, fmtC9].filter isComb).length) - (-1 : Int).natAbs))
        ∧ (presentableList [fmtC9, fmtC9] (-1)).2
            = ([fmtC9, fmtC9].filter isComb).length) :=
  ⟨by norm_num, C9_negative_limit _ _ (by norm_num)⟩

/-- Counterexample to C9 as stated: a negative limit does not signal
anything — `presentableList` returns an ordinary value (the first of the
two combined formats, with the true total 2). -/
theorem C9_negative_limit_counterexample :
    presentableList [fmtC9, fmtC9] (-1) = ([fmtC9], 2) := by decide

end VC
